import Mathlib

/-!
# PyChain ledger: a shallow embedding and verification

A shallow embedding of the PyChain ledger (`pychain.py`): the `Record`,
`Block` and `PyChain` data classes, SHA-256 block hashing, the
proof-of-work nonce search, block appending, and chain-linkage
validation, together with theorems checking the specification's claims
against this embedding.

Conventions of the embedding:
* Python `str` values are Lean `String`s; Python `int` is Lean `Int`.
* Bytes are `Nat`s below 256; 32-bit words are `Nat`s reduced mod `2 ^ 32`.
* The unbounded `while` loop of `proof_of_work` is embedded with an
  explicit fuel argument bounding the number of nonce increments; fuel
  exhaustion yields `none` and models non-termination within the bound.
* `is_valid` on an empty chain raises `IndexError` in Python
  (`self.chain[0]`); the embedding returns `none` there.
-/

namespace PyChainModel

/-! ## SHA-256 over byte lists

`hashlib.sha256` as used by `Block.hash_block`. Words are `Nat`s kept
below `2 ^ 32`; messages and digests are lists of byte-sized `Nat`s. -/

/-- Reduce to a 32-bit word. -/
def toWord (x : Nat) : Nat := x % 4294967296

/-- 32-bit modular addition. -/
def add32 (a b : Nat) : Nat := (a + b) % 4294967296

/-- Rotate a 32-bit word right by `n` bits. -/
def rotr32 (n x : Nat) : Nat := toWord ((x >>> n) ||| (x <<< (32 - n)))

/-- SHA-256 message-schedule sigma-0. -/
def sigma0 (x : Nat) : Nat := (rotr32 7 x) ^^^ (rotr32 18 x) ^^^ (x >>> 3)

/-- SHA-256 message-schedule sigma-1. -/
def sigma1 (x : Nat) : Nat := (rotr32 17 x) ^^^ (rotr32 19 x) ^^^ (x >>> 10)

/-- SHA-256 compression big-sigma-0. -/
def bigSigma0 (x : Nat) : Nat := (rotr32 2 x) ^^^ (rotr32 13 x) ^^^ (rotr32 22 x)

/-- SHA-256 compression big-sigma-1. -/
def bigSigma1 (x : Nat) : Nat := (rotr32 6 x) ^^^ (rotr32 11 x) ^^^ (rotr32 25 x)

/-- SHA-256 choice function. -/
def ch (e f g : Nat) : Nat := toWord ((e &&& f) ^^^ ((4294967295 ^^^ e) &&& g))

/-- SHA-256 majority function. -/
def maj (a b c : Nat) : Nat := toWord ((a &&& b) ^^^ (a &&& c) ^^^ (b &&& c))

/-- The 64 SHA-256 round constants. -/
def roundConsts : List Nat :=
  [1116352408, 1899447441, 3049323471, 3921009573, 961987163,
   1508970993, 2453635748, 2870763221, 3624381080, 310598401,
   607225278, 1426881987, 1925078388, 2162078206, 2614888103,
   3248222580, 3835390401, 4022224774, 264347078, 604807628,
   770255983, 1249150122, 1555081692, 1996064986, 2554220882,
   2821834349, 2952996808, 3210313671, 3336571891, 3584528711,
   113926993, 338241895, 666307205, 773529912, 1294757372,
   1396182291, 1695183700, 1986661051, 2177026350, 2456956037,
   2730485921, 2820302411, 3259730800, 3345764771, 3516065817,
   3600352804, 4094571909, 275423344, 430227734, 506948616,
   659060556, 883997877, 958139571, 1322822218, 1537002063,
   1747873779, 1955562222, 2024104815, 2227730452, 2361852424,
   2428436474, 2756734187, 3204031479, 3329325298]

/-- The initial SHA-256 hash state. -/
def initHash : List Nat :=
  [1779033703, 3144134277, 1013904242, 2773480762,
   1359893119, 2600822924, 528734635, 1541459225]

/-- Group bytes into big-endian 32-bit words (four bytes per word). -/
def bytesToWords : List Nat → List Nat
  | b0 :: b1 :: b2 :: b3 :: rest =>
      (b0 * 16777216 + b1 * 65536 + b2 * 256 + b3) :: bytesToWords rest
  | _ => []

/-- Extend a message schedule by `n` further words. -/
def extendSchedule (ws : List Nat) : Nat → List Nat
  | 0 => ws
  | n + 1 =>
      let a := ws.getD (ws.length - 2) 0
      let b := ws.getD (ws.length - 7) 0
      let c := ws.getD (ws.length - 15) 0
      let d := ws.getD (ws.length - 16) 0
      extendSchedule (ws ++ [add32 (add32 (sigma1 a) b) (add32 (sigma0 c) d)]) n

/-- One SHA-256 compression round on the eight-word working state. -/
def round (st : List Nat) (k w : Nat) : List Nat :=
  let a := st.getD 0 0
  let b := st.getD 1 0
  let c := st.getD 2 0
  let d := st.getD 3 0
  let e := st.getD 4 0
  let f := st.getD 5 0
  let g := st.getD 6 0
  let h := st.getD 7 0
  let t1 := add32 h (add32 (bigSigma1 e) (add32 (ch e f g) (add32 k w)))
  let t2 := add32 (bigSigma0 a) (maj a b c)
  [add32 t1 t2, a, b, c, add32 d t1, e, f, g]

/-- Process one 64-byte chunk against the running hash state. -/
def processChunk (hs chunk : List Nat) : List Nat :=
  let ws := extendSchedule (bytesToWords chunk) 48
  let st := List.foldl (fun st kw => round st kw.1 kw.2) hs (roundConsts.zip ws)
  List.zipWith add32 hs st

/-- Split a byte list into successive 64-byte chunks; the first argument
bounds the number of chunks (the list's own length always suffices). -/
def chunks64Aux : Nat → List Nat → List (List Nat)
  | 0, _ => []
  | _ + 1, [] => []
  | n + 1, x :: xs => (x :: xs.take 63) :: chunks64Aux n (xs.drop 63)

/-- Split a byte list into successive 64-byte chunks. -/
def chunks64 (l : List Nat) : List (List Nat) := chunks64Aux l.length l

/-- The eight big-endian bytes of the 64-bit message bit length. -/
def lenBytes (n : Nat) : List Nat :=
  [n / 72057594037927936 % 256, n / 281474976710656 % 256,
   n / 1099511627776 % 256, n / 4294967296 % 256,
   n / 16777216 % 256, n / 65536 % 256, n / 256 % 256, n % 256]

/-- SHA-256 padding: a `0x80` byte, zeros to 56 mod 64, then the bit length. -/
def padMessage (msg : List Nat) : List Nat :=
  msg ++ [128] ++ List.replicate ((120 - ((msg.length + 1) % 64)) % 64) 0 ++
    lenBytes (msg.length * 8)

/-- The SHA-256 digest of a byte list, as eight 32-bit words. -/
def sha256 (msg : List Nat) : List Nat :=
  List.foldl processChunk initHash (chunks64 (padMessage msg))

/-- A hex digit character for a value below 16. -/
def hexDigit (n : Nat) : Char :=
  if n < 10 then Char.ofNat (48 + n) else Char.ofNat (87 + n)

/-- The eight lowercase hex digits of a 32-bit word, most significant first. -/
def wordHex (w : Nat) : List Char :=
  [hexDigit (w / 268435456 % 16), hexDigit (w / 16777216 % 16),
   hexDigit (w / 1048576 % 16), hexDigit (w / 65536 % 16),
   hexDigit (w / 4096 % 16), hexDigit (w / 256 % 16),
   hexDigit (w / 16 % 16), hexDigit (w % 16)]

/-- `hashlib.sha256(...).hexdigest()`: the 64-character lowercase hex digest. -/
def sha256hex (msg : List Nat) : String :=
  String.mk (List.flatten ((sha256 msg).map wordHex))

/-- UTF-8 encoding of one character. -/
def utf8Char (c : Char) : List Nat :=
  let n := c.toNat
  if n < 128 then [n]
  else if n < 2048 then [192 + n / 64, 128 + n % 64]
  else if n < 65536 then [224 + n / 4096, 128 + n / 64 % 64, 128 + n % 64]
  else [240 + n / 262144, 128 + n / 4096 % 64, 128 + n / 64 % 64, 128 + n % 64]

/-- Python `str.encode()`: UTF-8 bytes of a string. -/
def utf8Encode (s : String) : List Nat := List.flatten (s.data.map utf8Char)

/-! ## The data model

`Record`, `Block` and `PyChain` from `pychain.py`. -/

/-- The `Record` data class: one financial transaction. The Streamlit
shell passes `st.text_input` values straight through, so `amount`
arrives as text and is stored without coercion, as the spec notes. -/
structure Record where
  sender : String
  receiver : String
  amount : String
deriving DecidableEq, Repr

/-- The value held in a `Block`'s record-typed field. The genesis block
is built as `Block('Genesis', 0)`, putting a plain string where a
`Record` is expected, so the field really ranges over both. -/
inductive RecordData where
  | ofRecord (r : Record)
  | raw (s : String)
deriving DecidableEq, Repr

/-- Python `repr` of a simple string value: surrounding single quotes.
(Faithful for strings without quotes or backslashes, which is all the
ledger ever stores.) -/
def reprStr (s : String) : String := "'" ++ s ++ "'"

/-- Python `str` of the value in the record field: the dataclass-generated
`Record(sender=..., receiver=..., amount=...)` form with `repr`ed fields,
or the bare string itself for the genesis placeholder. -/
def strRecordData : RecordData → String
  | .ofRecord r =>
      "Record(sender=" ++ reprStr r.sender ++ ", receiver=" ++
        reprStr r.receiver ++ ", amount=" ++ reprStr r.amount ++ ")"
  | .raw s => s

/-- The single timestamp string shared by every default-constructed block.
In the source, the dataclass field default
`timestamp: str = datetime.datetime.utcnow().strftime('%H:%M:%S')` is
evaluated exactly once, when the class statement itself runs at module
import; every `Block(...)` built without an explicit `timestamp=` then
receives this same pre-computed string.  Its concrete value is the wall
clock at module load; we fix one representative value, which no theorem
below depends on. -/
def defaultTimestamp : String := "00:00:00"

/-- The `Block` data class. Field defaults mirror the dataclass defaults;
`timestamp` defaults to the module-load constant, see `defaultTimestamp`. -/
structure Block where
  record : RecordData
  creator_id : Int
  prev_hash : String := "0"
  timestamp : String := defaultTimestamp
  nonce : Int := 0
deriving DecidableEq, Repr

/-- The bytes fed to SHA-256 by `hash_block`: the successive
`sha.update(...)` calls hash exactly the concatenation of the UTF-8
encodings of `str(record)`, `str(creator_id)`, `str(timestamp)`,
`str(prev_hash)` and `str(nonce)`, in that order. -/
def Block.hashInput (b : Block) : String :=
  strRecordData b.record ++ toString b.creator_id ++ b.timestamp ++
    b.prev_hash ++ toString b.nonce

/-- `Block.hash_block`: the SHA-256 hex digest of the concatenated
textual field representations. -/
def Block.hash_block (b : Block) : String :=
  sha256hex (utf8Encode b.hashInput)

/-- The `PyChain` data class: the block list and the mutable difficulty. -/
structure PyChain where
  chain : List Block
  difficulty : Int := 4
deriving DecidableEq, Repr

/-- `'0' * difficulty`: the required hash prefix, as a character list.
Python string repetition with a non-positive count yields the empty
string, as does `Int.toNat` here. -/
def numZeros (d : Int) : List Char := List.replicate d.toNat '0'

/-- The loop guard of `proof_of_work`:
`calculated_hash.startswith(num_of_zeros)`. Python's `str.startswith`
is exactly the prefix test on the character sequences. -/
def goodHash (d : Int) (b : Block) : Bool :=
  (numZeros d).isPrefixOf (b.hash_block).data

/-- `block.nonce += 1` and friends: a block with its nonce overwritten. -/
def setNonce (b : Block) (n : Int) : Block := { b with nonce := n }

/-- The `while` loop of `proof_of_work`: check the current hash; if it
has the required zero prefix stop, otherwise increment the nonce and
retry.  `fuel` bounds the number of increments; `none` means the loop
did not finish within `fuel` increments. -/
def powAux (d : Int) (b : Block) : Nat → Option Block
  | 0 => if goodHash d b then some b else none
  | fuel + 1 =>
      if goodHash d b then some b
      else powAux d (setNonce b (b.nonce + 1)) fuel

/-- `PyChain.proof_of_work`: run the nonce search at the chain's current
difficulty.  The method body never assigns to `self`, so the state passes
through unchanged alongside the mined block. -/
def PyChain.proof_of_work (c : PyChain) (b : Block) (fuel : Nat) :
    Option (Block × PyChain) :=
  match powAux c.difficulty b fuel with
  | some b' => some (b', c)
  | none => none

/-- `PyChain.add_block`: mine the candidate, then
`self.chain += [block]` — unconditional append, no validation and no
rollback path. -/
def PyChain.add_block (c : PyChain) (candidate_block : Block) (fuel : Nat) :
    Option PyChain :=
  match c.proof_of_work candidate_block fuel with
  | some (block, c') => some { c' with chain := c'.chain ++ [block] }
  | none => none

/-- The validation loop of `is_valid` over `self.chain[1:]`, seeded with
`block_hash`, the recomputed hash of the previous block. -/
def validFrom (block_hash : String) : List Block → Bool
  | [] => true
  | b :: bs =>
      if block_hash != b.prev_hash then false
      else validFrom b.hash_block bs

/-- `PyChain.is_valid`: seed with `self.chain[0].hash_block()` and walk
`self.chain[1:]`.  On an empty chain the Python raises `IndexError`,
embedded as `none`. -/
def PyChain.is_valid (c : PyChain) : Option Bool :=
  match c.chain with
  | [] => none
  | b :: bs => some (validFrom b.hash_block bs)

/-- The genesis block `Block('Genesis', 0)`: the placeholder string in
the record field, creator 0, and every other field at its default. -/
def genesisBlock : Block := { record := .raw "Genesis", creator_id := 0 }

/-- `setup()`: the chain as first constructed, holding only the genesis
block, at the default difficulty 4. -/
def genesisChain : PyChain := { chain := [genesisBlock] }

/-- The candidate block built by the Add Block handler: a fresh `Record`
from the three text inputs, `creator_id` from the `seed` constant, and
`prev_hash` set to the recomputed hash of the current tail; `timestamp`
and `nonce` keep their defaults. -/
def mkCandidate (sender receiver amount : String) (cid : Int)
    (prev_hash : String) : Block :=
  { record := .ofRecord ⟨sender, receiver, amount⟩, creator_id := cid,
    prev_hash := prev_hash }

/-- One user action on the chain state: the Add Block handler (build a
candidate whose `prev_hash` is the live hash of the current tail, mine
it, append it), the difficulty slider, or the read-only Validate button. -/
inductive Step : PyChain → PyChain → Prop
  | add (c : PyChain) (sender receiver amount : String) (cid : Int)
      (tl : Block) (fuel : Nat) (c' : PyChain) :
      c.chain.getLast? = some tl →
      c.add_block (mkCandidate sender receiver amount cid tl.hash_block) fuel
        = some c' →
      Step c c'
  | setDifficulty (c : PyChain) (d : Int) : Step c { c with difficulty := d }
  | validate (c : PyChain) : Step c c

/-- The chain states reachable from construction by user actions. -/
inductive Reachable : PyChain → Prop
  | init : Reachable genesisChain
  | step {c c' : PyChain} : Reachable c → Step c c' → Reachable c'

/-- The running `block_hash` value after the validation loop has walked a
block list: the seed if the list is empty, otherwise the recomputed hash
of its last block. -/
def lastHashAux (h : String) : List Block → String
  | [] => h
  | b :: bs => lastHashAux b.hash_block bs

/-! ## Lemmas about the nonce search -/

theorem setNonce_nonce (b : Block) (n : Int) : (setNonce b n).nonce = n := rfl

theorem setNonce_self (b : Block) : setNonce b b.nonce = b := rfl

theorem setNonce_setNonce (b : Block) (m n : Int) :
    setNonce (setNonce b m) n = setNonce b n := rfl

/-- Whatever `powAux` returns satisfies the difficulty predicate, is the
input block with only the nonce rewritten, has a nonce at least the
initial one, and no smaller nonce from the initial one on satisfies the
predicate. -/
theorem powAux_sound : ∀ (fuel : Nat) (d : Int) (b b' : Block),
    powAux d b fuel = some b' →
    goodHash d b' = true ∧ b' = setNonce b b'.nonce ∧ b.nonce ≤ b'.nonce ∧
      ∀ n : Int, b.nonce ≤ n → n < b'.nonce → goodHash d (setNonce b n) = false
  | 0, d, b, b', h => by
    by_cases hg : goodHash d b
    · simp only [powAux, hg, if_true, Option.some.injEq] at h
      subst h
      exact ⟨hg, (setNonce_self b).symm, le_refl _, fun n h1 h2 => absurd h1 (not_le.mpr h2)⟩
    · simp [powAux, hg] at h
  | fuel + 1, d, b, b', h => by
    by_cases hg : goodHash d b
    · simp only [powAux, hg, if_true, Option.some.injEq] at h
      subst h
      exact ⟨hg, (setNonce_self b).symm, le_refl _, fun n h1 h2 => absurd h1 (not_le.mpr h2)⟩
    · simp only [powAux, hg, if_false] at h
      obtain ⟨h1, h2, h3, h4⟩ := powAux_sound fuel d (setNonce b (b.nonce + 1)) b' h
      rw [setNonce_nonce] at h3
      refine ⟨h1, h2.trans (setNonce_setNonce b (b.nonce + 1) b'.nonce), by omega,
        fun n hn1 hn2 => ?_⟩
      rcases eq_or_lt_of_le hn1 with hn | hn
      · rw [← hn, setNonce_self]
        exact Bool.not_eq_true _ ▸ hg
      · have := h4 n (by rw [setNonce_nonce]; omega) hn2
        rwa [setNonce_setNonce] at this

/-- If some nonce `k` increments away satisfies the difficulty predicate
and the fuel covers `k` increments, the search succeeds. -/
theorem powAux_complete : ∀ (fuel : Nat) (d : Int) (b : Block) (k : Nat),
    k ≤ fuel → goodHash d (setNonce b (b.nonce + (k : Int))) = true →
    ∃ b', powAux d b fuel = some b'
  | 0, d, b, k, hk, hg => by
    interval_cases k
    rw [Int.natCast_zero, add_zero, setNonce_self] at hg
    exact ⟨b, by simp [powAux, hg]⟩
  | fuel + 1, d, b, k, hk, hg => by
    by_cases hb : goodHash d b
    · exact ⟨b, by simp [powAux, hb]⟩
    · match k with
      | 0 =>
        rw [Int.natCast_zero, add_zero, setNonce_self] at hg
        exact absurd hg hb
      | k + 1 =>
        have hg' : goodHash d
            (setNonce (setNonce b (b.nonce + 1)) ((setNonce b (b.nonce + 1)).nonce + (k : Int))) = true := by
          rw [setNonce_setNonce, setNonce_nonce]
          convert hg using 3
          push_cast
          ring
        obtain ⟨b', hb'⟩ :=
          powAux_complete fuel d (setNonce b (b.nonce + 1)) k (by omega) hg'
        exact ⟨b', by simp [powAux, hb, hb']⟩

/-- C1: if some nonce value greater than or equal to the block's initial
nonce (within the fuel bound) makes the block's hash start with
`difficulty` zero characters, then `proof_of_work` returns the same
block with only the nonce rewritten, its hash has the required zero
prefix, and the returned nonce is the smallest satisfying value greater
than or equal to the initial nonce. -/
theorem proof_of_work_finds_least (c : PyChain) (b : Block) (fuel k : Nat)
    (hk : k ≤ fuel)
    (hgood : goodHash c.difficulty (setNonce b (b.nonce + (k : Int))) = true) :
    ∃ b', c.proof_of_work b fuel = some (b', c) ∧
      goodHash c.difficulty b' = true ∧
      b' = setNonce b b'.nonce ∧ b.nonce ≤ b'.nonce ∧
      ∀ n : Int, b.nonce ≤ n → n < b'.nonce →
        goodHash c.difficulty (setNonce b n) = false := by
  obtain ⟨b', hb'⟩ := powAux_complete fuel c.difficulty b k hk hgood
  obtain ⟨h1, h2, h3, h4⟩ := powAux_sound fuel c.difficulty b b' hb'
  exact ⟨b', by simp [PyChain.proof_of_work, hb'], h1, h2, h3, h4⟩

set_option maxRecDepth 100000 in
/-- Witness for C1: mining the genesis block at difficulty 1 — nonce 5 is
a satisfying value, and the search finds the least one. -/
theorem proof_of_work_finds_least_witness :
    (5 : Nat) ≤ 5 ∧
    goodHash (PyChain.mk [genesisBlock] 1).difficulty
      (setNonce genesisBlock (genesisBlock.nonce + ((5 : Nat) : Int))) = true ∧
    ∃ b', (PyChain.mk [genesisBlock] 1).proof_of_work genesisBlock 5
        = some (b', PyChain.mk [genesisBlock] 1) ∧
      goodHash (PyChain.mk [genesisBlock] 1).difficulty b' = true ∧
      b' = setNonce genesisBlock b'.nonce ∧ genesisBlock.nonce ≤ b'.nonce ∧
      ∀ n : Int, genesisBlock.nonce ≤ n → n < b'.nonce →
        goodHash (PyChain.mk [genesisBlock] 1).difficulty
          (setNonce genesisBlock n) = false :=
  ⟨le_refl 5, by decide,
    proof_of_work_finds_least (PyChain.mk [genesisBlock] 1) genesisBlock 5 5
      (le_refl 5) (by decide)⟩

/-- C6: `proof_of_work` mutates only the nonce — the returned block keeps
the input block's record, creator, previous hash, and timestamp, and the
chain state (block sequence and difficulty) passes through unchanged. -/
theorem proof_of_work_frame (c : PyChain) (b : Block) (fuel : Nat)
    (b' : Block) (c' : PyChain)
    (h : c.proof_of_work b fuel = some (b', c')) :
    b'.record = b.record ∧ b'.creator_id = b.creator_id ∧
      b'.prev_hash = b.prev_hash ∧ b'.timestamp = b.timestamp ∧ c' = c := by
  unfold PyChain.proof_of_work at h
  cases hp : powAux c.difficulty b fuel with
  | none => rw [hp] at h; exact absurd h (by simp)
  | some m =>
    rw [hp] at h
    simp only [Option.some.injEq, Prod.mk.injEq] at h
    obtain ⟨hm, hc⟩ := h
    obtain ⟨-, h2, -, -⟩ := powAux_sound fuel c.difficulty b m hp
    subst hm
    rw [h2]
    exact ⟨rfl, rfl, rfl, rfl, hc.symm⟩

/-- Witness for C6: at difficulty 0 the search succeeds immediately and
the frame conditions hold at this concrete call. -/
theorem proof_of_work_frame_witness :
    (PyChain.mk [genesisBlock] 0).proof_of_work genesisBlock 0
      = some (genesisBlock, PyChain.mk [genesisBlock] 0) ∧
    genesisBlock.record = genesisBlock.record ∧
    genesisBlock.creator_id = genesisBlock.creator_id ∧
    genesisBlock.prev_hash = genesisBlock.prev_hash ∧
    genesisBlock.timestamp = genesisBlock.timestamp ∧
    PyChain.mk [genesisBlock] 0 = PyChain.mk [genesisBlock] 0 :=
  ⟨by decide,
    proof_of_work_frame (PyChain.mk [genesisBlock] 0) genesisBlock 0
      genesisBlock (PyChain.mk [genesisBlock] 0) (by decide)⟩

/-- C8: with a non-positive difficulty the required zero prefix is the
empty string, so `proof_of_work` returns on the first hash attempt, with
the block unchanged (in particular the nonce keeps its initial value),
for every fuel bound including zero. -/
theorem zero_difficulty_first_attempt (c : PyChain) (b : Block) (fuel : Nat)
    (hd : c.difficulty ≤ 0) :
    numZeros c.difficulty = [] ∧ c.proof_of_work b fuel = some (b, c) := by
  have hz : numZeros c.difficulty = [] := by
    unfold numZeros
    rw [Int.toNat_of_nonpos hd, List.replicate_zero]
  have hg : goodHash c.difficulty b = true := by
    unfold goodHash
    rw [hz]
    exact List.isPrefixOf_nil_left
  exact ⟨hz, by cases fuel <;> simp [PyChain.proof_of_work, powAux, hg]⟩

/-- Witness for C8: difficulty `-3` is non-positive and mining the genesis
block returns it unchanged on the first attempt. -/
theorem zero_difficulty_first_attempt_witness :
    (PyChain.mk [genesisBlock] (-3)).difficulty ≤ 0 ∧
    numZeros (PyChain.mk [genesisBlock] (-3)).difficulty = [] ∧
    (PyChain.mk [genesisBlock] (-3)).proof_of_work genesisBlock 7
      = some (genesisBlock, PyChain.mk [genesisBlock] (-3)) :=
  ⟨by decide,
    zero_difficulty_first_attempt (PyChain.mk [genesisBlock] (-3)) genesisBlock 7
      (by decide)⟩

/-! ## Lemmas about chain validation -/

theorem validFrom_cons_true (h : String) (b : Block) (bs : List Block) :
    validFrom h (b :: bs) = true ↔
      b.prev_hash = h ∧ validFrom b.hash_block bs = true := by
  by_cases hb : h = b.prev_hash
  · subst hb
    simp [validFrom]
  · have hbne : (h != b.prev_hash) = true := bne_iff_ne.mpr hb
    simp only [validFrom, hbne, if_true, Bool.false_eq_true, false_iff, not_and]
    intro he
    exact absurd he.symm hb

/-- Once the validation walk has gone false on a prefix of the remaining
blocks, appending further blocks cannot change the outcome: the loop
returned before ever looking at them. -/
theorem validFrom_append_false : ∀ (bs : List Block) (h : String) (rest : List Block),
    validFrom h bs = false → validFrom h (bs ++ rest) = false
  | [], h, rest, hf => by simp [validFrom] at hf
  | b :: bs, h, rest, hf => by
    rw [List.cons_append]
    unfold validFrom at hf ⊢
    cases hb : (h != b.prev_hash) with
    | true => simp [hb]
    | false =>
      rw [hb] at hf
      simp only [Bool.false_eq_true, if_false] at hf ⊢
      exact validFrom_append_false bs _ rest hf

/-- The validation walk seeded with the head block's recomputed hash
succeeds exactly when every block's stored `prev_hash` equals the
recomputed hash of its predecessor. -/
theorem validFrom_true_iff : ∀ (bs : List Block) (b0 : Block),
    validFrom b0.hash_block bs = true ↔
      ∀ i, (hi : i + 1 < (b0 :: bs).length) →
        ((b0 :: bs).get ⟨i + 1, hi⟩).prev_hash
          = ((b0 :: bs).get ⟨i, Nat.lt_of_succ_lt hi⟩).hash_block
  | [], b0 => by
    simp only [validFrom, List.length_cons, List.length_nil]
    constructor
    · intro _ i hi
      omega
    · intro _
      trivial
  | b :: bs, b0 => by
    rw [validFrom_cons_true, validFrom_true_iff bs b]
    constructor
    · rintro ⟨h0, hrest⟩ i hi
      match i with
      | 0 => exact h0
      | j + 1 => exact hrest j (Nat.lt_of_succ_lt_succ hi)
    · intro hall
      exact ⟨hall 0 (Nat.succ_lt_succ (Nat.succ_pos _)),
        fun j hj => hall (j + 1) (Nat.succ_lt_succ hj)⟩

/-- Replacing the final block of a list by one with the same stored
`prev_hash` does not change the validation walk's verdict. -/
theorem validFrom_tail_irrelevant :
    ∀ (bs : List Block) (h : String) (b b' : Block),
    b.prev_hash = b'.prev_hash →
    validFrom h (bs ++ [b]) = validFrom h (bs ++ [b'])
  | [], h, b, b', hp => by simp [validFrom, hp]
  | x :: bs, h, b, b', hp => by
    simp only [List.cons_append, validFrom, List.append_eq]
    rw [validFrom_tail_irrelevant bs x.hash_block b b' hp]

/-- C2: on a non-empty chain, `is_valid` returns `True` exactly when
every block at index `i ≥ 1` stores as `prev_hash` the freshly
recomputed `hash_block` of block `i - 1`; and once the walk has found a
mismatch it returns `False` without examining any block appended after
the mismatch point. -/
theorem is_valid_iff_linked :
    (∀ c : PyChain, c.chain ≠ [] →
      (c.is_valid = some true ↔
        ∀ i, (hi : i + 1 < c.chain.length) →
          (c.chain.get ⟨i + 1, hi⟩).prev_hash
            = (c.chain.get ⟨i, Nat.lt_of_succ_lt hi⟩).hash_block)) ∧
    ∀ (b0 : Block) (bs rest : List Block) (d : Int),
      validFrom b0.hash_block bs = false →
      PyChain.is_valid ⟨b0 :: (bs ++ rest), d⟩ = some false := by
  constructor
  · rintro ⟨ch, d⟩ hne
    match ch, hne with
    | b0 :: bs, _ =>
      simp only [PyChain.is_valid, Option.some.injEq]
      exact validFrom_true_iff bs b0
  · intro b0 bs rest d hf
    simp only [PyChain.is_valid, Option.some.injEq]
    exact validFrom_append_false bs _ rest hf

set_option maxRecDepth 1000000 in
/-- Witness for C2: the genesis chain satisfies the linkage criterion, and
a chain whose second block stores a bogus `prev_hash` is reported invalid
whatever comes after that block. -/
theorem is_valid_iff_linked_witness :
    (genesisChain.chain ≠ [] ∧
      (genesisChain.is_valid = some true ↔
        ∀ i, (hi : i + 1 < genesisChain.chain.length) →
          (genesisChain.chain.get ⟨i + 1, hi⟩).prev_hash
            = (genesisChain.chain.get ⟨i, Nat.lt_of_succ_lt hi⟩).hash_block)) ∧
    (validFrom genesisBlock.hash_block [mkCandidate "A" "B" "10" 42 "bogus"] = false ∧
      PyChain.is_valid
          ⟨genesisBlock :: ([mkCandidate "A" "B" "10" 42 "bogus"] ++ [genesisBlock]), 4⟩
        = some false) :=
  ⟨⟨by decide, is_valid_iff_linked.1 genesisChain (by decide)⟩,
   by decide,
   is_valid_iff_linked.2 genesisBlock [mkCandidate "A" "B" "10" 42 "bogus"]
     [genesisBlock] 4 (by decide)⟩

/-- C9: the final block's own hash is never checked against anything — a
genesis-only chain validates whatever the genesis block holds, and
replacing the tail block by any block with the same stored `prev_hash`
(record, creator, timestamp and nonce arbitrary) leaves the verdict of
`is_valid` unchanged. -/
theorem tail_tamper_undetected :
    (∀ (b : Block) (d : Int), PyChain.is_valid ⟨[b], d⟩ = some true) ∧
    ∀ (bs : List Block) (b b' : Block) (d : Int),
      b.prev_hash = b'.prev_hash →
      PyChain.is_valid ⟨bs ++ [b], d⟩ = PyChain.is_valid ⟨bs ++ [b'], d⟩ := by
  constructor
  · intro b d
    simp [PyChain.is_valid, validFrom]
  · intro bs b b' d hp
    cases bs with
    | nil => simp [PyChain.is_valid, validFrom]
    | cons x xs =>
      simp only [List.cons_append, PyChain.is_valid]
      rw [validFrom_tail_irrelevant xs x.hash_block b b' hp]

/-- Witness for C9: a genesis-only chain validates, and swapping the tail
for a tampered block with the same `prev_hash` gives the same verdict. -/
theorem tail_tamper_undetected_witness :
    PyChain.is_valid ⟨[genesisBlock], 4⟩ = some true ∧
    genesisBlock.prev_hash
      = (Block.mk (.raw "tampered") 99 "0" defaultTimestamp 7).prev_hash ∧
    PyChain.is_valid ⟨[] ++ [genesisBlock], 4⟩
      = PyChain.is_valid ⟨[] ++ [Block.mk (.raw "tampered") 99 "0" defaultTimestamp 7], 4⟩ :=
  ⟨tail_tamper_undetected.1 genesisBlock 4, rfl,
   tail_tamper_undetected.2 [] genesisBlock
     (Block.mk (.raw "tampered") 99 "0" defaultTimestamp 7) 4 rfl⟩

/-! ## Lemmas about appending blocks and reachable states -/

/-- `add_block` succeeds exactly when the mining loop does, and its whole
effect is appending the mined block to the chain. -/
theorem add_block_eq (c : PyChain) (b : Block) (fuel : Nat) (c' : PyChain) :
    c.add_block b fuel = some c' ↔
      ∃ m, powAux c.difficulty b fuel = some m ∧
        c' = PyChain.mk (c.chain ++ [m]) c.difficulty := by
  unfold PyChain.add_block PyChain.proof_of_work
  cases hp : powAux c.difficulty b fuel with
  | none => simp
  | some m =>
    simp only [Option.some.injEq]
    constructor
    · intro h
      exact ⟨m, rfl, h.symm⟩
    · rintro ⟨m', rfl, rfl⟩
      rfl

theorem lastHashAux_cons (h : String) (b : Block) (bs : List Block) :
    lastHashAux h (b :: bs) = lastHashAux b.hash_block bs := rfl

theorem lastHashAux_nil (h : String) : lastHashAux h [] = h := rfl

theorem lastHashAux_getLast? : ∀ (bs : List Block) (b0 tl : Block),
    (b0 :: bs).getLast? = some tl → lastHashAux b0.hash_block bs = tl.hash_block
  | [], b0, tl, h => by
    have hb : b0 = tl := by simpa using h
    rw [lastHashAux_nil, hb]
  | b :: bs, b0, tl, h => by
    rw [List.getLast?_cons_cons] at h
    rw [lastHashAux_cons]
    exact lastHashAux_getLast? bs b tl h

/-- Appending a block whose stored `prev_hash` is the hash the walk ends
on preserves a successful validation walk. -/
theorem validFrom_snoc_true : ∀ (bs : List Block) (h : String) (m : Block),
    validFrom h bs = true → m.prev_hash = lastHashAux h bs →
    validFrom h (bs ++ [m]) = true
  | [], h, m, _, hm => (validFrom_cons_true h m []).mpr ⟨hm, rfl⟩
  | b :: bs, h, m, hv, hm => by
    rw [List.cons_append]
    rw [validFrom_cons_true] at hv ⊢
    exact ⟨hv.1, validFrom_snoc_true bs b.hash_block m hv.2 hm⟩

/-- One user action never rewrites the existing block sequence: the old
chain is an initial segment of the new one. -/
theorem step_chain_prefix {c c' : PyChain} (h : Step c c') :
    c.chain <+: c'.chain := by
  cases h with
  | add s r a cid tl fuel c2 hlast hab =>
    obtain ⟨m, hm, rfl⟩ := (add_block_eq _ _ _ _).mp hab
    exact ⟨[m], rfl⟩
  | setDifficulty d => exact ⟨[], List.append_nil _⟩
  | validate => exact ⟨[], List.append_nil _⟩

/-- Invariant of reachable states: the chain is a nonempty list whose
validation walk succeeds. -/
theorem reachable_chain_linked (c : PyChain) (h : Reachable c) :
    ∃ b0 bs, c.chain = b0 :: bs ∧ validFrom b0.hash_block bs = true := by
  induction h with
  | init => exact ⟨genesisBlock, [], rfl, rfl⟩
  | step hr hs ih =>
    obtain ⟨b0, bs, hc, hv⟩ := ih
    cases hs with
    | add s r a cid tl fuel c2 hlast hab =>
      obtain ⟨m, hm, rfl⟩ := (add_block_eq _ _ _ _).mp hab
      obtain ⟨-, h2, -, -⟩ := powAux_sound _ _ _ _ hm
      refine ⟨b0, bs ++ [m], by simp [hc], ?_⟩
      apply validFrom_snoc_true bs b0.hash_block m hv
      have hm_ph : m.prev_hash = tl.hash_block := congrArg Block.prev_hash h2
      rw [hm_ph]
      exact (lastHashAux_getLast? bs b0 tl (hc ▸ hlast)).symm
    | setDifficulty d => exact ⟨b0, bs, hc, hv⟩
    | validate => exact ⟨b0, bs, hc, hv⟩

/-- C3: validation soundness — every chain reachable from construction by
add-block actions (each candidate's `prev_hash` set to the live hash of
the then-current tail before mining), difficulty assignments, and
validation calls, with no later tampering, reports valid. -/
theorem mined_chain_is_valid (c : PyChain) (h : Reachable c) :
    c.is_valid = some true := by
  obtain ⟨b0, bs, hc, hv⟩ := reachable_chain_linked c h
  simp [PyChain.is_valid, hc, hv]

set_option maxRecDepth 1000000 in
/-- Witness for C3: set difficulty to 0, add one block on top of genesis;
the resulting two-block chain is reachable and validates. -/
theorem mined_chain_is_valid_witness :
    (PyChain.mk [genesisBlock,
        mkCandidate "A" "B" "10" 42 genesisBlock.hash_block] 0).is_valid
      = some true :=
  mined_chain_is_valid _
    (Reachable.step
      (Reachable.step Reachable.init (Step.setDifficulty genesisChain 0))
      (Step.add (PyChain.mk [genesisBlock] 0) "A" "B" "10" 42 genesisBlock 0
        (PyChain.mk [genesisBlock,
          mkCandidate "A" "B" "10" 42 genesisBlock.hash_block] 0)
        rfl (by decide)))

/-- One user action keeps the chain nonempty and keeps the original
genesis block at index 0. -/
theorem step_preserves_head {c c' : PyChain} (hs : Step c c')
    (h : c.chain ≠ [] ∧ c.chain.head? = some genesisBlock) :
    c'.chain ≠ [] ∧ c'.chain.head? = some genesisBlock := by
  obtain ⟨hne, hhead⟩ := h
  obtain ⟨t, ht⟩ := step_chain_prefix hs
  cases hcx : c.chain with
  | nil => exact absurd hcx hne
  | cons a as =>
    rw [hcx] at hhead
    rw [← ht, hcx]
    exact ⟨by simp, by simpa using hhead⟩

/-- C4: every reachable chain state is nonempty and still starts with the
original genesis block, and every user action leaves the existing block
sequence in place — growth is append-only, never removing, reordering or
replacing an accepted block. -/
theorem reachable_append_only :
    (∀ c : PyChain, Reachable c →
        c.chain ≠ [] ∧ c.chain.head? = some genesisBlock) ∧
    ∀ c c' : PyChain, Step c c' → c.chain <+: c'.chain := by
  constructor
  · intro c h
    induction h with
    | init => exact ⟨by simp [genesisChain], rfl⟩
    | step hr hs ih => exact step_preserves_head hs ih
  · exact fun c c' h => step_chain_prefix h

/-- Witness for C4: the initial state is reachable and satisfies the
invariant, and the read-only Validate action keeps the chain in place. -/
theorem reachable_append_only_witness :
    (genesisChain.chain ≠ [] ∧ genesisChain.chain.head? = some genesisBlock) ∧
    genesisChain.chain <+: genesisChain.chain :=
  ⟨reachable_append_only.1 genesisChain Reachable.init,
   reachable_append_only.2 genesisChain genesisChain (Step.validate genesisChain)⟩

/-- C5: `add_block` has no rejection path — whenever the mining loop
terminates it unconditionally appends the mined block at the tail, and
every successful call changes the state exactly by that one appended
block: same difficulty, same existing blocks, length one greater. -/
theorem add_block_appends (c : PyChain) (b : Block) (fuel : Nat) :
    (∀ m, powAux c.difficulty b fuel = some m →
        c.add_block b fuel = some (PyChain.mk (c.chain ++ [m]) c.difficulty)) ∧
    ∀ c', c.add_block b fuel = some c' →
      ∃ m, powAux c.difficulty b fuel = some m ∧
        c'.chain = c.chain ++ [m] ∧ c'.difficulty = c.difficulty ∧
        c'.chain.length = c.chain.length + 1 := by
  constructor
  · intro m hm
    exact (add_block_eq c b fuel _).mpr ⟨m, hm, rfl⟩
  · intro c' hc'
    obtain ⟨m, hm, rfl⟩ := (add_block_eq c b fuel c').mp hc'
    exact ⟨m, hm, rfl, rfl, by simp⟩

/-- Witness for C5: adding a block to the genesis chain at difficulty 0
appends exactly one block. -/
theorem add_block_appends_witness :
    (PyChain.mk [genesisBlock] 0).add_block genesisBlock 0
      = some (PyChain.mk ([genesisBlock] ++ [genesisBlock]) 0) ∧
    ∃ m, powAux (PyChain.mk [genesisBlock] 0).difficulty genesisBlock 0 = some m ∧
      (PyChain.mk ([genesisBlock] ++ [genesisBlock]) 0).chain
        = (PyChain.mk [genesisBlock] 0).chain ++ [m] ∧
      (PyChain.mk ([genesisBlock] ++ [genesisBlock]) 0).difficulty
        = (PyChain.mk [genesisBlock] 0).difficulty ∧
      (PyChain.mk ([genesisBlock] ++ [genesisBlock]) 0).chain.length
        = (PyChain.mk [genesisBlock] 0).chain.length + 1 :=
  ⟨(add_block_appends (PyChain.mk [genesisBlock] 0) genesisBlock 0).1
      genesisBlock (by decide),
   (add_block_appends (PyChain.mk [genesisBlock] 0) genesisBlock 0).2
      (PyChain.mk ([genesisBlock] ++ [genesisBlock]) 0) (by decide)⟩

/-- C7 (refuting the per-construction reading): the dataclass default
`timestamp: str = datetime.datetime.utcnow().strftime('%H:%M:%S')` is
evaluated once, when the `class Block` statement runs at module import.
Every block later constructed without an explicit timestamp argument —
whatever its other fields and whenever during the session it is built —
therefore carries the identical module-load string, never a
per-construction clock reading. -/
theorem default_timestamp_shared (r1 r2 : RecordData) (cid1 cid2 : Int)
    (ph1 ph2 : String) (s rcv amt : String) :
    ({ record := r1, creator_id := cid1, prev_hash := ph1 } : Block).timestamp
      = ({ record := r2, creator_id := cid2, prev_hash := ph2 } : Block).timestamp ∧
    ({ record := r1, creator_id := cid1, prev_hash := ph1 } : Block).timestamp
      = defaultTimestamp ∧
    (mkCandidate s rcv amt cid1 ph1).timestamp = defaultTimestamp ∧
    genesisBlock.timestamp = defaultTimestamp :=
  ⟨rfl, rfl, rfl, rfl⟩

set_option maxRecDepth 1000000 in
/-- C10: the undelimited concatenation hashed by `hash_block` is not
injective — creator 12 with timestamp `3:44:55` and creator 1 with
timestamp `23:44:55` (all other fields equal) produce the same input
bytes and hence the same digest. -/
theorem hash_input_collision :
    ∃ b1 b2 : Block,
      b1.creator_id ≠ b2.creator_id ∧ b1.timestamp ≠ b2.timestamp ∧
      b1.record = b2.record ∧ b1.prev_hash = b2.prev_hash ∧ b1.nonce = b2.nonce ∧
      b1.hashInput = b2.hashInput ∧ b1.hash_block = b2.hash_block := by
  refine ⟨Block.mk (.raw "Genesis") 12 "0" "3:44:55" 0,
          Block.mk (.raw "Genesis") 1 "0" "23:44:55" 0,
          by decide, by decide, rfl, rfl, rfl, by decide, ?_⟩
  have h : (Block.mk (.raw "Genesis") 12 "0" "3:44:55" 0).hashInput
      = (Block.mk (.raw "Genesis") 1 "0" "23:44:55" 0).hashInput := by decide
  unfold Block.hash_block
  rw [h]

end PyChainModel
